import Mathlib

/-!
# Verification of the Giant Food deal-tracker core

Shallow embedding, in Lean 4, of the deal-matching and deduplication engine of
the repository (files `automated_scraper.py` and `deal_tracker.py`).

Modelling conventions:
* Python strings are `List Char`; the embedding covers the ASCII semantics of
  `str.lower`, `\s`, `\b` and `\w` (the repository's product names, units and
  separators are ASCII).
* Python `float` prices are modelled as `ℚ` (exact decimal arithmetic).
* Python `dict`s (insertion ordered) are association lists.
* `datetime` timestamps are `ℤ` in an arbitrary fixed unit (e.g. microseconds);
  an unparsable `found_date` string (swallowed by `except: continue` in
  `filter_new_deals`) is modelled as `Option.none`.
* `list.sort(key=..., reverse=True)` (Timsort: stable, here descending by
  `savings`) is modelled by Mathlib's stable `List.insertionSort` with the
  relation `fun a b => b.savings ≤ a.savings`; a stable descending-by-savings
  sort is unique, so the two agree on every input.
-/

/-! ## Character classes (ASCII fragment of Python's `\s`, `\w`, `str.lower`) -/

/-- Python `\s` on ASCII: space, tab, newline, carriage return, vertical tab,
form feed. -/
def isWs (c : Char) : Bool :=
  c == ' ' || c == '\t' || c == '\n' || c == '\r' || c == Char.ofNat 11 || c == Char.ofNat 12

/-- Python `\w` on ASCII: `[a-zA-Z0-9_]`; used for the `\b` word boundaries of
the unit-stripping regex in `normalize_product_name`. -/
def isWordChar (c : Char) : Bool :=
  c.isAlphanum || c == '_'

/-- ASCII case folding of one character (`str.lower` restricted to ASCII). -/
def asciiLower (c : Char) : Char :=
  if 65 ≤ c.toNat ∧ c.toNat ≤ 90 then Char.ofNat (c.toNat + 32) else c

/-- `name.lower()` on ASCII strings. -/
def pyLower (l : List Char) : List Char :=
  l.map asciiLower

/-! ## `normalize_product_name` (automated_scraper.py lines 400-405)

```
normalized = re.sub(r'\b\d+(\.\d+)?\s*(oz|lb|ct|fl oz|ml|l)\b', '', name.lower())
normalized = re.sub(r'\s+', ' ', normalized).strip()
```

The first substitution is embedded by a left-to-right scan (`stripUnitsFuel`)
that at each word-boundary-before-a-digit position attempts the pattern with
Python's backtracking semantics and, on success, deletes the matched span and
resumes after it.  Backtracking of `\d+` and `\s*` to shorter matches can never
succeed (the alternatives all start with a letter), so maximal runs are taken;
the optional fraction group is tried greedily with fall-back, exactly as the
regex engine does. -/

/-- The unit alternation `(oz|lb|ct|fl oz|ml|l)`, in the regex's order. -/
def unitNames : List (List Char) :=
  [['o', 'z'], ['l', 'b'], ['c', 't'], ['f', 'l', ' ', 'o', 'z'], ['m', 'l'], ['l']]

/-- The trailing `\b` of the unit pattern: every unit ends in a word character,
so the boundary holds iff the remainder starts with a non-word character (or is
empty). -/
def wordBoundaryAfter : List Char → Bool
  | [] => true
  | c :: _ => !isWordChar c

/-- Try the unit alternatives in order at the head of `l`; on success return
the remainder after the unit. -/
def tryUnits : List (List Char) → List Char → Option (List Char)
  | [], _ => none
  | u :: us, l =>
    if u.isPrefixOf l && wordBoundaryAfter (l.drop u.length) then some (l.drop u.length)
    else tryUnits us l

/-- Match `\s*(oz|lb|ct|fl oz|ml|l)\b` at the head of `l`. -/
def unitAt (l : List Char) : Option (List Char) :=
  tryUnits unitNames (l.dropWhile isWs)

/-- Match `\d+(\.\d+)?\s*(oz|lb|ct|fl oz|ml|l)\b` at the head of `l` (the
caller has established the leading `\b`); returns the remainder after the
matched span. -/
def tryMatch : List Char → Option (List Char)
  | [] => none
  | c :: cs =>
    if c.isDigit then
      match cs.dropWhile Char.isDigit with
      | '.' :: r2 =>
        if (r2.takeWhile Char.isDigit).isEmpty then unitAt ('.' :: r2)
        else
          match unitAt (r2.dropWhile Char.isDigit) with
          | some rest => some rest
          | none => unitAt ('.' :: r2)
      | r1 => unitAt r1
    else none

/-- One left-to-right `re.sub(pattern, '', ·)` pass, deleting every
non-overlapping match.  `prevWord` records whether the previous character of
the original string is a word character (for the leading `\b`); the fuel is the
length of the remaining list, which each step strictly decreases, so the `0`
case is unreachable from `stripUnits`. -/
def stripUnitsFuel : Nat → Bool → List Char → List Char
  | 0, _, l => l
  | _ + 1, _, [] => []
  | n + 1, prevWord, c :: cs =>
    if !prevWord && c.isDigit then
      match tryMatch (c :: cs) with
      | some rest => stripUnitsFuel n true rest
      | none => c :: stripUnitsFuel n (isWordChar c) cs
    else c :: stripUnitsFuel n (isWordChar c) cs

/-- `re.sub(r'\b\d+(\.\d+)?\s*(oz|lb|ct|fl oz|ml|l)\b', '', l)`. -/
def stripUnits (l : List Char) : List Char :=
  stripUnitsFuel l.length false l

/-- `re.sub(r'\s+', ' ', ·)`: each maximal whitespace run becomes one space.
`prevWs` records whether the previous character was whitespace. -/
def collapseWsAux (prevWs : Bool) : List Char → List Char
  | [] => []
  | c :: cs =>
    if isWs c then
      if prevWs then collapseWsAux true cs else ' ' :: collapseWsAux true cs
    else c :: collapseWsAux false cs

/-- `re.sub(r'\s+', ' ', l)`. -/
def collapseWs (l : List Char) : List Char :=
  collapseWsAux false l

/-- Remove trailing whitespace. -/
def dropTrailingWs : List Char → List Char
  | [] => []
  | c :: cs =>
    match dropTrailingWs cs with
    | [] => if isWs c then [] else [c]
    | r => c :: r

/-- Python `str.strip()`: remove leading and trailing whitespace. -/
def pyStrip (l : List Char) : List Char :=
  dropTrailingWs (l.dropWhile isWs)

/-- `normalize_product_name`: lower-case, strip number-plus-unit tokens,
collapse whitespace runs to single spaces, trim. -/
def normalize_product_name (name : List Char) : List Char :=
  pyStrip (collapseWs (stripUnits (pyLower name)))

/-! ### Normal-form predicates used in the idempotence analysis of the
normalizer -/

/-- The head, if any, is not whitespace. -/
def headNonWs : List Char → Bool
  | [] => true
  | c :: _ => !isWs c

/-- The last character, if any, is not whitespace. -/
def lastOk : List Char → Bool
  | [] => true
  | [c] => !isWs c
  | _ :: c :: cs => lastOk (c :: cs)

/-- No two adjacent whitespace characters. -/
def okRun : List Char → Bool
  | c :: d :: rest => !(isWs c && isWs d) && okRun (d :: rest)
  | _ => true

/-! ## Records and `Deal` (automated_scraper.py lines 31-44, 222-290, 335-398)

`extract_coupon_data` / `extract_sale_data` always populate every field of the
records they return (`expiry_date` defaults to `"Unknown"`), so the records are
fixed-shape structures. -/

/-- A scraped digital-coupon record. -/
structure CouponData where
  product_name : List Char
  discount_amount : ℚ
  description : List Char
  expiry_date : List Char
deriving DecidableEq

/-- A scraped weekly-sale record. -/
structure SaleData where
  product_name : List Char
  original_price : ℚ
  sale_price : ℚ
  sale_description : List Char
deriving DecidableEq

/-- The `Deal` dataclass. -/
structure Deal where
  product_name : List Char
  original_price : ℚ
  sale_price : ℚ
  coupon_discount : ℚ
  final_price : ℚ
  savings : ℚ
  savings_percent : ℚ
  coupon_description : List Char
  sale_description : List Char
  expiry_date : List Char
  product_url : List Char
  image_url : List Char
deriving DecidableEq

/-- The three numeric thresholds of `config['filters']` used by
`deal_meets_criteria`. -/
structure Filters where
  minimum_savings_dollar : ℚ
  minimum_savings_percent : ℚ
  max_original_price : ℚ
deriving DecidableEq

/-- `create_deal_object` (automated_scraper.py lines 450-473). -/
def create_deal_object (coupon_data : CouponData) (sale_data : SaleData) : Deal :=
  let original_price := sale_data.original_price
  let sale_price := sale_data.sale_price
  let coupon_discount := coupon_data.discount_amount
  let final_price := max 0 (sale_price - coupon_discount)
  let savings := original_price - final_price
  let savings_percent := if 0 < original_price then savings / original_price * 100 else 0
  { product_name := sale_data.product_name
    original_price := original_price
    sale_price := sale_price
    coupon_discount := coupon_discount
    final_price := final_price
    savings := savings
    savings_percent := savings_percent
    coupon_description := coupon_data.description
    sale_description := sale_data.sale_description
    expiry_date := coupon_data.expiry_date
    product_url := []
    image_url := [] }

/-- `deal_meets_criteria` (automated_scraper.py lines 475-490). -/
def deal_meets_criteria (filters : Filters) (deal : Deal) : Bool :=
  if deal.savings < filters.minimum_savings_dollar then false
  else if deal.savings_percent < filters.minimum_savings_percent then false
  else if deal.original_price > filters.max_original_price then false
  else true

/-! ## `products_match` (automated_scraper.py lines 429-448) -/

/-- Python `str.split()` with no argument: split on whitespace runs, dropping
empty pieces.  `cur` accumulates the current word reversed. -/
def pyWordsAux (cur : List Char) : List Char → List (List Char)
  | [] => if cur.isEmpty then [] else [cur.reverse]
  | c :: cs =>
    if isWs c then
      if cur.isEmpty then pyWordsAux [] cs else cur.reverse :: pyWordsAux [] cs
    else pyWordsAux (c :: cur) cs

/-- `key.split()`. -/
def pyWords (l : List Char) : List (List Char) :=
  pyWordsAux [] l

/-- `len(set(coupon_key.split()) & set(sale_key.split()))`: the number of
distinct words common to both keys. -/
def commonWordCount (coupon_key sale_key : List Char) : Nat :=
  (((pyWords coupon_key).filter (fun w => decide (w ∈ pyWords sale_key))).dedup).length

/-- `products_match`: exact key equality, substring containment either way
(Python `in`), or at least two shared words.  The `coupon_data`/`sale_data`
parameters of the Python method are unused by its body and omitted. -/
def products_match (coupon_key sale_key : List Char) : Bool :=
  coupon_key == sale_key
    || decide (coupon_key <:+: sale_key)
    || decide (sale_key <:+: coupon_key)
    || decide (2 ≤ commonWordCount coupon_key sale_key)

/-! ## `find_double_deals` (automated_scraper.py lines 407-427) -/

/-- The descending-by-savings comparison used by
`deals.sort(key=lambda x: x.savings, reverse=True)`. -/
def savingsGE (a b : Deal) : Prop :=
  b.savings ≤ a.savings

instance : DecidableRel savingsGE :=
  fun a b => inferInstanceAs (Decidable (b.savings ≤ a.savings))

instance : IsTotal Deal savingsGE :=
  ⟨fun a b => le_total b.savings a.savings⟩

instance : IsTrans Deal savingsGE :=
  ⟨fun _ _ _ h h2 => le_trans h2 h⟩

/-- The accepted deals in pair order: for every coupon (outer loop, dict
order) and every sale (inner loop), build the `Deal` when the keys match and
keep it when it meets the criteria. -/
def builtDeals (filters : Filters) (coupons : List (List Char × CouponData))
    (sales : List (List Char × SaleData)) : List Deal :=
  (coupons.map (fun p =>
    sales.filterMap (fun q =>
      if products_match p.1 q.1
          && deal_meets_criteria filters (create_deal_object p.2 q.2) then
        some (create_deal_object p.2 q.2)
      else none))).flatten

/-- `find_double_deals`: accepted deals sorted by savings descending
(stable). -/
def find_double_deals (filters : Filters) (coupons : List (List Char × CouponData))
    (sales : List (List Char × SaleData)) : List Deal :=
  List.insertionSort savingsGE (builtDeals filters coupons sales)

/-! ## `filter_new_deals` (automated_scraper.py lines 681-704) -/

/-- One entry of the persisted deal history (`previous_deals`): the two
signature fields and the parse result of its `found_date` string (`none` when
`datetime.fromisoformat` raises and the `except` clause skips the entry). -/
structure HistEntry where
  product_name : List Char
  final_price : ℚ
  found_date : Option ℤ
deriving DecidableEq

/-- The suppression set: signatures of history entries whose parsed
`found_date` is strictly later than `now - window` (in the source,
`cutoff_date = datetime.now() - timedelta(days=3)` and
`deal_date > cutoff_date`).  The Python signature string
`f"{product_name}_{final_price}"` is modelled as the pair: float `repr`s
contain no underscore, so the string agrees with the pair on equality. -/
def recentSignatures (now window : ℤ) (previous : List HistEntry) : List (List Char × ℚ) :=
  previous.filterMap (fun h =>
    match h.found_date with
    | some t => if now - window < t then some (h.product_name, h.final_price) else none
    | none => none)

/-- `filter_new_deals`: keep the candidates whose signature is not in the
suppression set.  The window is a parameter (the source instantiates it with 3
days). -/
def filter_new_deals (now window : ℤ) (previous : List HistEntry)
    (deals : List Deal) : List Deal :=
  deals.filter (fun d => decide ((d.product_name, d.final_price) ∉ recentSignatures now window previous))

/-! ## Concrete records used by individual claims -/

/-- A coupon with a malformed (negative) discount. -/
def badCoupon : CouponData := ⟨"milk".data, -2, [], []⟩

/-- A well-formed sale matching `badCoupon`'s key. -/
def badSale : SaleData := ⟨"milk".data, 10, 3, []⟩

/-- The default thresholds of `create_default_config`: 1.50 dollars, 25
percent, 100 dollars. -/
def defaultFilters : Filters := ⟨3/2, 25, 100⟩

/-- A candidate deal with signature `("a", 1)` for the dedup-window checks. -/
def dealBoundary : Deal := ⟨['a'], 1, 1, 0, 1, 0, 0, [], [], [], [], []⟩

/-- A second candidate with the same signature `("a", 1)` but different other
fields. -/
def dealBoundary2 : Deal := ⟨['a'], 3, 2, 1, 1, 2, 50, [], [], [], [], []⟩

/-! ## Theorems -/

section Arithmetic

/-- C1.  For every coupon record and sale record the built `Deal` satisfies
`final_price = max 0 (sale_price - coupon_discount)`,
`savings = original_price - final_price`, and
`savings_percent = savings / original_price * 100` when `original_price > 0`
and `0` otherwise; for original 10, sale 7, discount 2 the deal has final 5,
savings 5, percent 50, and for discount 9, sale 5, original 10 it has final 0
and savings 10. -/
theorem C1_deal_arithmetic :
    (∀ (c : CouponData) (s : SaleData),
      (create_deal_object c s).final_price = max 0 (s.sale_price - c.discount_amount) ∧
      (create_deal_object c s).savings = s.original_price - (create_deal_object c s).final_price ∧
      (create_deal_object c s).savings_percent =
        (if 0 < s.original_price then
          (create_deal_object c s).savings / s.original_price * 100 else 0)) ∧
    ((create_deal_object ⟨[], 2, [], []⟩ ⟨[], 10, 7, []⟩).final_price = 5 ∧
      (create_deal_object ⟨[], 2, [], []⟩ ⟨[], 10, 7, []⟩).savings = 5 ∧
      (create_deal_object ⟨[], 2, [], []⟩ ⟨[], 10, 7, []⟩).savings_percent = 50) ∧
    ((create_deal_object ⟨[], 9, [], []⟩ ⟨[], 10, 5, []⟩).final_price = 0 ∧
      (create_deal_object ⟨[], 9, [], []⟩ ⟨[], 10, 5, []⟩).savings = 10) := by
  refine ⟨fun c s => ⟨rfl, rfl, rfl⟩, ⟨?_, ?_, ?_⟩, ?_, ?_⟩ <;>
    norm_num [create_deal_object, max_def]

/-- C2 counterexample.  There is no coupon/sale pair with
`coupon_discount > sale_price` whose deal has `final_price = 0` and
`savings > original_price`: whenever the final price is clamped to zero the
savings equal the original price exactly and can never exceed it. -/
theorem C2_counterexample :
    ¬ ∃ (c : CouponData) (s : SaleData),
        s.sale_price < c.discount_amount ∧
        (create_deal_object c s).final_price = 0 ∧
        s.original_price < (create_deal_object c s).savings := by
  rintro ⟨c, s, -, -, hgt⟩
  have h0 : (0 : ℚ) ≤ max 0 (s.sale_price - c.discount_amount) := le_max_left _ _
  simp only [create_deal_object] at hgt
  linarith

/-- C2 (amended).  For every coupon/sale pair with
`coupon_discount > sale_price` the deal has `final_price = 0`,
`savings = original_price` exactly (so `savings_percent = 100` when
`original_price > 0`), and savings never exceed the original price. -/
theorem C2_clamped_savings (c : CouponData) (s : SaleData)
    (h : s.sale_price < c.discount_amount) :
    (create_deal_object c s).final_price = 0 ∧
    (create_deal_object c s).savings = s.original_price ∧
    (0 < s.original_price → (create_deal_object c s).savings_percent = 100) ∧
    (create_deal_object c s).savings ≤ s.original_price := by
  have hneg : s.sale_price - c.discount_amount ≤ 0 := by linarith
  have hmax : max 0 (s.sale_price - c.discount_amount) = 0 := max_eq_left hneg
  refine ⟨?_, ?_, ?_, ?_⟩
  · simp [create_deal_object, hmax]
  · simp [create_deal_object, hmax]
  · intro hpos
    simp only [create_deal_object, hmax, sub_zero, if_pos hpos]
    field_simp
  · simp [create_deal_object, hmax]

/-- C2 witness: discount 9, sale 5, original 10 satisfies the hypothesis and
the amended conclusions. -/
theorem C2_clamped_savings_witness :
    (5 : ℚ) < 9 ∧
    ((create_deal_object ⟨[], 9, [], []⟩ ⟨[], 10, 5, []⟩).final_price = 0 ∧
      (create_deal_object ⟨[], 9, [], []⟩ ⟨[], 10, 5, []⟩).savings = 10 ∧
      (0 < (10 : ℚ) → (create_deal_object ⟨[], 9, [], []⟩ ⟨[], 10, 5, []⟩).savings_percent = 100) ∧
      (create_deal_object ⟨[], 9, [], []⟩ ⟨[], 10, 5, []⟩).savings ≤ 10) :=
  ⟨by norm_num, C2_clamped_savings ⟨[], 9, [], []⟩ ⟨[], 10, 5, []⟩ (by norm_num)⟩

/-- C6.  The criteria filter accepts a deal iff
`savings ≥ minimum_savings_dollar` and
`savings_percent ≥ minimum_savings_percent` and
`original_price ≤ max_original_price`; with the default thresholds
(1.50, 25, 100), a deal whose savings are exactly 1.50 is accepted and one
whose savings are 1.49 is rejected. -/
theorem C6_criteria_filter :
    (∀ (f : Filters) (d : Deal),
      deal_meets_criteria f d = true ↔
        (f.minimum_savings_dollar ≤ d.savings ∧
          f.minimum_savings_percent ≤ d.savings_percent ∧
          d.original_price ≤ f.max_original_price)) ∧
    ((create_deal_object ⟨[], 1, [], []⟩ ⟨[], 3, 5/2, []⟩).savings = 3/2 ∧
      deal_meets_criteria ⟨3/2, 25, 100⟩
        (create_deal_object ⟨[], 1, [], []⟩ ⟨[], 3, 5/2, []⟩) = true) ∧
    ((create_deal_object ⟨[], 99/100, [], []⟩ ⟨[], 3, 5/2, []⟩).savings = 3/2 - 1/100 ∧
      deal_meets_criteria ⟨3/2, 25, 100⟩
        (create_deal_object ⟨[], 99/100, [], []⟩ ⟨[], 3, 5/2, []⟩) = false) := by
  refine ⟨fun f d => ?_,
    ⟨by norm_num [create_deal_object, max_def],
      by norm_num [deal_meets_criteria, create_deal_object, max_def]⟩,
    by norm_num [create_deal_object, max_def],
    by norm_num [deal_meets_criteria, create_deal_object, max_def]⟩
  simp only [deal_meets_criteria]
  by_cases h1 : d.savings < f.minimum_savings_dollar
  · rw [if_pos h1]
    exact iff_of_false Bool.false_ne_true fun hc => absurd hc.1 (not_le.mpr h1)
  · rw [if_neg h1]
    by_cases h2 : d.savings_percent < f.minimum_savings_percent
    · rw [if_pos h2]
      exact iff_of_false Bool.false_ne_true fun hc => absurd hc.2.1 (not_le.mpr h2)
    · rw [if_neg h2]
      by_cases h3 : d.original_price > f.max_original_price
      · rw [if_pos h3]
        exact iff_of_false Bool.false_ne_true fun hc => absurd hc.2.2 (not_le.mpr h3)
      · rw [if_neg h3]
        exact iff_of_true rfl ⟨not_lt.mp h1, not_lt.mp h2, not_lt.mp h3⟩

end Arithmetic

section Matcher

/-- Bridge between the implementation's distinct-common-word count and the
spec's set-intersection cardinality. -/
lemma commonWordCount_eq_card_inter (ck sk : List Char) :
    commonWordCount ck sk = ((pyWords ck).toFinset ∩ (pyWords sk).toFinset).card := by
  rw [commonWordCount, ← List.card_toFinset, List.toFinset_filter]
  congr 1
  rw [← Finset.filter_mem_eq_inter]
  exact Finset.filter_congr fun w _ => by simp

/-- C5.  The matcher declares a match iff the normalized keys are identical,
or one is a substring of the other, or the word sets obtained by splitting
the keys on whitespace share at least two words. -/
theorem C5_matcher_rules (coupon_key sale_key : List Char) :
    products_match coupon_key sale_key = true ↔
      (coupon_key = sale_key ∨ coupon_key <:+: sale_key ∨ sale_key <:+: coupon_key ∨
        2 ≤ ((pyWords coupon_key).toFinset ∩ (pyWords sale_key).toFinset).card) := by
  simp only [products_match, Bool.or_eq_true, beq_iff_eq, decide_eq_true_eq,
    commonWordCount_eq_card_inter]
  tauto

/-- C9.  A coupon whose product name normalizes to the empty key (such as
`"12 oz"`) matches every sale key: the empty string is a substring of every
string under the containment rule. -/
theorem C9_empty_key_matches_all :
    normalize_product_name ("12 oz".data) = [] ∧
    ∀ sale_key : List Char,
      products_match (normalize_product_name ("12 oz".data)) sale_key = true := by
  have h : normalize_product_name ("12 oz".data) = [] := by decide
  refine ⟨h, fun sale_key => ?_⟩
  rw [h]
  have hinf : ([] : List Char) <:+: sale_key := ⟨[], sale_key, rfl⟩
  simp [products_match, hinf]

end Matcher

section Pipeline

/-- Filtering deals with savings equal to `v` commutes with one ordered
insertion: the inserted deal, when it has savings `v`, lands in front of all
equal-savings deals already present (stability of the insertion step). -/
lemma filter_savings_orderedInsert (v : ℚ) (d : Deal) (m : List Deal) :
    (List.orderedInsert savingsGE d m).filter (fun e => decide (e.savings = v)) =
      if d.savings = v then d :: m.filter (fun e => decide (e.savings = v))
      else m.filter (fun e => decide (e.savings = v)) := by
  induction m with
  | nil =>
    by_cases hd : d.savings = v <;> simp [List.orderedInsert, hd]
  | cons e es ih =>
    simp only [List.orderedInsert]
    by_cases hre : savingsGE d e
    · rw [if_pos hre]
      by_cases hd : d.savings = v <;> by_cases he : e.savings = v <;>
        simp [List.filter_cons, hd, he]
    · rw [if_neg hre]
      have hlt : d.savings < e.savings := lt_of_not_le hre
      by_cases hd : d.savings = v
      · have he : e.savings ≠ v := by rw [← hd]; exact ne_of_gt hlt
        simp [List.filter_cons, he, ih, hd]
      · by_cases he : e.savings = v <;> simp [List.filter_cons, he, ih, hd]

/-- Filtering deals with savings equal to `v` is invariant under the stable
descending sort. -/
lemma filter_savings_insertionSort (v : ℚ) (l : List Deal) :
    (List.insertionSort savingsGE l).filter (fun e => decide (e.savings = v)) =
      l.filter (fun e => decide (e.savings = v)) := by
  induction l with
  | nil => rfl
  | cons d l ih =>
    rw [List.insertionSort, filter_savings_orderedInsert, ih]
    by_cases hd : d.savings = v <;> simp [List.filter_cons, hd]

/-- C8.  The pipeline output is sorted by savings descending, and the sort is
stable: restricting the output and the in-order accepted-deal sequence to any
fixed savings value yields the same list, so equal-savings deals keep their
relative input order. -/
theorem C8_sorted_and_stable (filters : Filters) (coupons : List (List Char × CouponData))
    (sales : List (List Char × SaleData)) :
    List.Sorted savingsGE (find_double_deals filters coupons sales) ∧
    ∀ v : ℚ,
      (find_double_deals filters coupons sales).filter (fun d => decide (d.savings = v)) =
        (builtDeals filters coupons sales).filter (fun d => decide (d.savings = v)) :=
  ⟨List.sorted_insertionSort savingsGE _, fun v => filter_savings_insertionSort v _⟩

/-- C4 counterexample.  A matched pair whose coupon has a malformed (negative)
discount is not rejected: the pair's deal is built, passes the criteria
filter, and is the pipeline output. -/
theorem C4_counterexample :
    badCoupon.discount_amount < 0 ∧
    find_double_deals defaultFilters [("milk".data, badCoupon)] [("milk".data, badSale)] =
      [create_deal_object badCoupon badSale] := by
  constructor
  · norm_num [badCoupon]
  · have hm : products_match ("milk".data) ("milk".data) = true := by decide
    have hcrit : deal_meets_criteria defaultFilters (create_deal_object badCoupon badSale) = true := by
      norm_num [deal_meets_criteria, create_deal_object, badCoupon, badSale, defaultFilters, max_def]
    simp [find_double_deals, builtDeals, hm, hcrit, List.insertionSort, List.orderedInsert]

/-- C4 (amended).  The deal builder performs no validation whatsoever: every
matched pair — including pairs with negative numeric fields — is built,
handed to the criteria filter, and, when it passes, reaches the pipeline
output; the computation is total, so no error is raised. -/
theorem C4_no_validation (filters : Filters) (coupons : List (List Char × CouponData))
    (sales : List (List Char × SaleData)) (ck sk : List Char) (cd : CouponData) (sd : SaleData)
    (hc : (ck, cd) ∈ coupons) (hs : (sk, sd) ∈ sales)
    (hm : products_match ck sk = true)
    (hcrit : deal_meets_criteria filters (create_deal_object cd sd) = true) :
    create_deal_object cd sd ∈ find_double_deals filters coupons sales := by
  have hmem : create_deal_object cd sd ∈ builtDeals filters coupons sales := by
    simp only [builtDeals, List.mem_flatten]
    refine ⟨_, List.mem_map_of_mem _ hc, ?_⟩
    exact List.mem_filterMap.mpr ⟨(sk, sd), hs, by simp [hm, hcrit]⟩
  exact (List.perm_insertionSort savingsGE _).mem_iff.mpr hmem

/-- C4 witness: the malformed (negative-discount) matched pair satisfies all
hypotheses, and its deal is in the pipeline output. -/
theorem C4_no_validation_witness :
    ("milk".data, badCoupon) ∈ [("milk".data, badCoupon)] ∧
    ("milk".data, badSale) ∈ [("milk".data, badSale)] ∧
    products_match ("milk".data) ("milk".data) = true ∧
    deal_meets_criteria defaultFilters (create_deal_object badCoupon badSale) = true ∧
    create_deal_object badCoupon badSale ∈
      find_double_deals defaultFilters [("milk".data, badCoupon)] [("milk".data, badSale)] := by
  have hcrit : deal_meets_criteria defaultFilters (create_deal_object badCoupon badSale) = true := by
    norm_num [deal_meets_criteria, create_deal_object, badCoupon, badSale, defaultFilters, max_def]
  exact ⟨by decide, by decide, by decide, hcrit,
    C4_no_validation defaultFilters _ _ ("milk".data) ("milk".data) badCoupon badSale
      (by decide) (by decide) (by decide) hcrit⟩

end Pipeline

section Dedup

/-- Membership in the suppression set unfolded: a signature is suppressed iff
some history entry carries it with a parseable timestamp strictly inside the
window. -/
lemma mem_recentSignatures (now window : ℤ) (previous : List HistEntry)
    (nm : List Char) (fp : ℚ) :
    (nm, fp) ∈ recentSignatures now window previous ↔
      ∃ h ∈ previous, h.product_name = nm ∧ h.final_price = fp ∧
        ∃ t, h.found_date = some t ∧ now - window < t := by
  simp only [recentSignatures, List.mem_filterMap]
  constructor
  · rintro ⟨h, hh, heq⟩
    refine ⟨h, hh, ?_⟩
    split at heq
    · next t ht =>
      split at heq
      · next hlt =>
        rw [Option.some_inj, Prod.mk.injEq] at heq
        exact ⟨heq.1, heq.2, t, ht, hlt⟩
      · exact absurd heq (by simp)
    · next => exact absurd heq (by simp)
  · rintro ⟨h, hh, h1, h2, t, hd, ht⟩
    exact ⟨h, hh, by rw [hd]; simp [if_pos ht, h1, h2]⟩

/-- Membership in the deduplicator output, unfolded to the claim's condition. -/
lemma mem_filter_new_deals_iff (now window : ℤ) (previous : List HistEntry)
    (deals : List Deal) (d : Deal) :
    d ∈ filter_new_deals now window previous deals ↔
      d ∈ deals ∧
        ¬ ∃ h ∈ previous, h.product_name = d.product_name ∧ h.final_price = d.final_price ∧
          ∃ t, h.found_date = some t ∧ now - window < t := by
  rw [filter_new_deals, List.mem_filter]
  simp only [decide_eq_true_eq]
  exact and_congr_right fun _ => not_congr (mem_recentSignatures ..)

/-- C7.  A candidate survives the deduplicator iff no history entry with the
same `(product_name, final_price)` signature has a parseable `found_date`
strictly later than `now - window`; an entry dated exactly at `now - window`
does not suppress, one strictly inside the window does. -/
theorem C7_dedup_window :
    (∀ (now window : ℤ) (previous : List HistEntry) (deals : List Deal) (d : Deal),
      d ∈ filter_new_deals now window previous deals ↔
        d ∈ deals ∧
          ¬ ∃ h ∈ previous, h.product_name = d.product_name ∧ h.final_price = d.final_price ∧
            ∃ t, h.found_date = some t ∧ now - window < t) ∧
    filter_new_deals 0 3 [⟨['a'], 1, some (-3)⟩] [dealBoundary] = [dealBoundary] ∧
    filter_new_deals 0 3 [⟨['a'], 1, some (-2)⟩] [dealBoundary] = [] :=
  ⟨mem_filter_new_deals_iff, by decide, by decide⟩

/-- C10.  The deduplicator never compares candidates with each other: two
candidates with the same signature both survive whenever that signature is
absent from the suppression set. -/
theorem C10_no_intra_run_dedup (now window : ℤ) (previous : List HistEntry)
    (deals : List Deal) (d1 d2 : Deal)
    (h1 : d1 ∈ deals) (h2 : d2 ∈ deals)
    (hnm : d1.product_name = d2.product_name) (hfp : d1.final_price = d2.final_price)
    (hfresh : (d1.product_name, d1.final_price) ∉ recentSignatures now window previous) :
    d1 ∈ filter_new_deals now window previous deals ∧
    d2 ∈ filter_new_deals now window previous deals := by
  constructor <;> rw [filter_new_deals, List.mem_filter]
  · exact ⟨h1, decide_eq_true hfresh⟩
  · refine ⟨h2, decide_eq_true ?_⟩
    rw [← hnm, ← hfp]
    exact hfresh

/-- C10 witness: two distinct candidates with the common signature
`("a", 1)`, an empty history, and both in the output. -/
theorem C10_no_intra_run_dedup_witness :
    dealBoundary ∈ [dealBoundary, dealBoundary2] ∧
    dealBoundary2 ∈ [dealBoundary, dealBoundary2] ∧
    dealBoundary.product_name = dealBoundary2.product_name ∧
    dealBoundary.final_price = dealBoundary2.final_price ∧
    (dealBoundary.product_name, dealBoundary.final_price) ∉ recentSignatures 0 3 [] ∧
    (dealBoundary ∈ filter_new_deals 0 3 [] [dealBoundary, dealBoundary2] ∧
      dealBoundary2 ∈ filter_new_deals 0 3 [] [dealBoundary, dealBoundary2]) :=
  ⟨by decide, by decide, by decide, by decide, by decide,
    C10_no_intra_run_dedup 0 3 [] [dealBoundary, dealBoundary2] dealBoundary dealBoundary2
      (by decide) (by decide) (by decide) (by decide) (by decide)⟩

end Dedup

section Normalizer

/-- `Char.ofNat` of a valid code point round-trips through `toNat`. -/
lemma toNat_ofNat_valid {n : Nat} (h : n.isValidChar) : (Char.ofNat n).toNat = n := by
  rw [Char.ofNat, dif_pos h]
  rfl

/-- ASCII case folding is idempotent. -/
lemma asciiLower_idem (c : Char) : asciiLower (asciiLower c) = asciiLower c := by
  by_cases h : 65 ≤ c.toNat ∧ c.toNat ≤ 90
  · have hv : (c.toNat + 32).isValidChar := Or.inl (by omega)
    have ht : (Char.ofNat (c.toNat + 32)).toNat = c.toNat + 32 := toNat_ofNat_valid hv
    have h1 : asciiLower c = Char.ofNat (c.toNat + 32) := by
      unfold asciiLower
      rw [if_pos h]
    rw [h1]
    unfold asciiLower
    rw [if_neg (by rw [ht]; omega)]
  · have h1 : asciiLower c = c := by
      unfold asciiLower
      rw [if_neg h]
    rw [h1]
    exact h1

lemma asciiLower_space : asciiLower ' ' = ' ' := by decide

/-- A successful unit-alternation match leaves a suffix. -/
lemma tryUnits_suffix (us : List (List Char)) : ∀ l r, tryUnits us l = some r → r <:+ l := by
  induction us with
  | nil => intro l r h; simp [tryUnits] at h
  | cons u us ih =>
    intro l r h
    simp only [tryUnits] at h
    split at h
    · cases h; exact List.drop_suffix _ _
    · exact ih l r h

/-- A successful `\s*unit\b` match leaves a suffix. -/
lemma unitAt_suffix (l r : List Char) (h : unitAt l = some r) : r <:+ l :=
  (tryUnits_suffix _ _ _ h).trans (List.dropWhile_suffix _)

/-- A successful full-pattern match leaves a suffix of the scanned list. -/
lemma tryMatch_suffix : ∀ (l r : List Char), tryMatch l = some r → r <:+ l := by
  intro l r h
  match l with
  | [] => simp [tryMatch] at h
  | c :: cs =>
    have step : ∀ m, m <:+ cs → unitAt m = some r → r <:+ c :: cs := fun m hm hu =>
      ((unitAt_suffix m r hu).trans hm).trans (List.suffix_cons c cs)
    have hdw : cs.dropWhile Char.isDigit <:+ cs := List.dropWhile_suffix _
    simp only [tryMatch] at h
    split at h
    · split at h
      · next r2 heq =>
        have hr2 : ('.' :: r2) <:+ cs := heq ▸ hdw
        have hr2' : r2 <:+ cs := (List.suffix_cons '.' r2).trans hr2
        split at h
        · exact step _ hr2 h
        · split at h
          · next rest hrest =>
            cases h
            exact step _ ((List.dropWhile_suffix _).trans hr2') hrest
          · exact step _ hr2 h
      · exact step _ hdw h
    · simp at h

/-- Characters of the unit-stripped string come from the input. -/
lemma mem_stripUnitsFuel : ∀ (n : Nat) (b : Bool) (l : List Char) (c : Char),
    c ∈ stripUnitsFuel n b l → c ∈ l := by
  intro n
  induction n with
  | zero => intro b l c h; exact h
  | succ n ih =>
    intro b l c h
    match l with
    | [] => simp [stripUnitsFuel] at h
    | a :: as =>
      simp only [stripUnitsFuel] at h
      split at h
      · split at h
        · next rest hrest =>
          exact (tryMatch_suffix _ _ hrest).mem (ih true rest c h)
        · rcases List.mem_cons.mp h with rfl | hm
          · exact List.mem_cons_self _ _
          · exact List.mem_cons_of_mem _ (ih _ as c hm)
      · rcases List.mem_cons.mp h with rfl | hm
        · exact List.mem_cons_self _ _
        · exact List.mem_cons_of_mem _ (ih _ as c hm)

/-- Characters of the whitespace-collapsed string come from the input or are
spaces. -/
lemma mem_collapseWsAux : ∀ (l : List Char) (b : Bool) (c : Char),
    c ∈ collapseWsAux b l → c ∈ l ∨ c = ' ' := by
  intro l
  induction l with
  | nil => intro b c h; simp [collapseWsAux] at h
  | cons a as ih =>
    intro b c h
    simp only [collapseWsAux] at h
    split at h
    · split at h
      · rcases ih true c h with hm | hs
        · exact Or.inl (List.mem_cons_of_mem _ hm)
        · exact Or.inr hs
      · rcases List.mem_cons.mp h with rfl | hm
        · exact Or.inr rfl
        · rcases ih true c hm with h1 | h2
          · exact Or.inl (List.mem_cons_of_mem _ h1)
          · exact Or.inr h2
    · rcases List.mem_cons.mp h with rfl | hm
      · exact Or.inl (List.mem_cons_self _ _)
      · rcases ih false c hm with h1 | h2
        · exact Or.inl (List.mem_cons_of_mem _ h1)
        · exact Or.inr h2

/-- Characters of the right-trimmed string come from the input. -/
lemma mem_dropTrailingWs : ∀ (l : List Char) (c : Char), c ∈ dropTrailingWs l → c ∈ l := by
  intro l
  induction l with
  | nil => intro c h; exact h
  | cons a as ih =>
    intro c h
    simp only [dropTrailingWs] at h
    split at h
    · split at h
      · simp at h
      · rw [List.mem_singleton] at h
        subst h
        exact List.mem_cons_self _ _
    · rcases List.mem_cons.mp h with rfl | hm
      · exact List.mem_cons_self _ _
      · exact List.mem_cons_of_mem _ (ih c hm)

/-- Mapping ASCII case folding over an already-folded string is the
identity. -/
lemma pyLower_eq_self (l : List Char) (h : ∀ c ∈ l, asciiLower c = c) : pyLower l = l := by
  induction l with
  | nil => rfl
  | cons a as ih =>
    show asciiLower a :: pyLower as = a :: as
    rw [h a (List.mem_cons_self a as), ih fun c hc => h c (List.mem_cons_of_mem _ hc)]

/-- Every character of a normalized name is fixed by ASCII case folding. -/
lemma asciiLower_fix_of_mem_normalize (x : List Char) :
    ∀ c ∈ normalize_product_name x, asciiLower c = c := by
  intro c hc
  have h1 : c ∈ (collapseWsAux false (stripUnits (pyLower x))).dropWhile isWs :=
    mem_dropTrailingWs _ c hc
  have h2 : c ∈ collapseWsAux false (stripUnits (pyLower x)) :=
    (List.dropWhile_suffix _).mem h1
  rcases mem_collapseWsAux _ _ _ h2 with h3 | rfl
  · have h4 : c ∈ pyLower x := mem_stripUnitsFuel _ _ _ _ h3
    rcases List.mem_map.mp h4 with ⟨a, -, rfl⟩
    exact asciiLower_idem a
  · exact asciiLower_space

end Normalizer

section NormalizerNF

/-- Unfolding of `okRun` over a cons. -/
lemma okRun_cons (c : Char) (l : List Char) :
    okRun (c :: l) = ((headNonWs l || !isWs c) && okRun l) := by
  cases l with
  | nil => simp [okRun, headNonWs]
  | cons d rest => simp [okRun, headNonWs, Bool.not_and, Bool.or_comm]

/-- After a collapse in whitespace state the head is never whitespace. -/
lemma headNonWs_collapseWsAux_true : ∀ l : List Char, headNonWs (collapseWsAux true l) = true := by
  intro l
  induction l with
  | nil => rfl
  | cons a as ih =>
    simp only [collapseWsAux]
    split
    · simpa using ih
    · next h =>
      have ha : isWs a = false := by simpa using h
      simp [headNonWs, ha]

/-- Collapsed output has no two adjacent whitespace characters. -/
lemma okRun_collapseWsAux : ∀ (l : List Char) (b : Bool), okRun (collapseWsAux b l) = true := by
  intro l
  induction l with
  | nil => intro b; rfl
  | cons a as ih =>
    intro b
    by_cases ha : isWs a = true
    · cases b with
      | false =>
        rw [show collapseWsAux false (a :: as) = ' ' :: collapseWsAux true as by
          simp [collapseWsAux, ha]]
        rw [okRun_cons, headNonWs_collapseWsAux_true, ih true]
        rfl
      | true =>
        rw [show collapseWsAux true (a :: as) = collapseWsAux true as by
          simp [collapseWsAux, ha]]
        exact ih true
    · have ha' : isWs a = false := by simpa using ha
      rw [show collapseWsAux b (a :: as) = a :: collapseWsAux false as by
        simp [collapseWsAux, ha']]
      rw [okRun_cons, ih false, ha']
      simp

/-- Whitespace characters of the collapsed output are plain spaces. -/
lemma wsSp_collapseWsAux : ∀ (l : List Char) (b : Bool) (c : Char),
    c ∈ collapseWsAux b l → isWs c = true → c = ' ' := by
  intro l
  induction l with
  | nil => intro b c h; simp [collapseWsAux] at h
  | cons a as ih =>
    intro b c h hws
    by_cases ha : isWs a = true
    · cases b with
      | false =>
        rw [show collapseWsAux false (a :: as) = ' ' :: collapseWsAux true as by
          simp [collapseWsAux, ha]] at h
        rcases List.mem_cons.mp h with rfl | hm
        · rfl
        · exact ih true c hm hws
      | true =>
        rw [show collapseWsAux true (a :: as) = collapseWsAux true as by
          simp [collapseWsAux, ha]] at h
        exact ih true c h hws
    · have ha' : isWs a = false := by simpa using ha
      rw [show collapseWsAux b (a :: as) = a :: collapseWsAux false as by
        simp [collapseWsAux, ha']] at h
      rcases List.mem_cons.mp h with rfl | hm
      · rw [hws] at ha'
        cases ha'
      · exact ih false c hm hws

/-- After dropping leading whitespace the head is never whitespace. -/
lemma headNonWs_dropWhileWs (l : List Char) : headNonWs (l.dropWhile isWs) = true := by
  induction l with
  | nil => rfl
  | cons a as ih =>
    rw [List.dropWhile_cons]
    split
    · exact ih
    · next h =>
      have ha : isWs a = false := by simpa using h
      simp [headNonWs, ha]

/-- Right-trimming preserves a non-whitespace head. -/
lemma headNonWs_dropTrailingWs (l : List Char) (h : headNonWs l = true) :
    headNonWs (dropTrailingWs l) = true := by
  cases l with
  | nil => exact h
  | cons a as =>
    simp only [dropTrailingWs]
    split
    · split
      · rfl
      · exact h
    · exact h

/-- Dropping leading whitespace preserves run-freeness. -/
lemma okRun_dropWhileWs (l : List Char) (h : okRun l = true) :
    okRun (l.dropWhile isWs) = true := by
  induction l with
  | nil => exact h
  | cons a as ih =>
    rw [List.dropWhile_cons]
    split
    · rw [okRun_cons, Bool.and_eq_true] at h
      exact ih h.2
    · exact h

/-- Right-trimming preserves run-freeness. -/
lemma okRun_dropTrailingWs : ∀ l : List Char, okRun l = true → okRun (dropTrailingWs l) = true := by
  intro l
  induction l with
  | nil => intro h; exact h
  | cons a as ih =>
    intro h
    rw [okRun_cons, Bool.and_eq_true] at h
    obtain ⟨h1, h2⟩ := h
    cases hd : dropTrailingWs as with
    | nil =>
      rw [show dropTrailingWs (a :: as) = if isWs a then [] else [a] by
        simp only [dropTrailingWs, hd]]
      split
      · rfl
      · rfl
    | cons x xs =>
      rw [show dropTrailingWs (a :: as) = a :: x :: xs by
        simp only [dropTrailingWs, hd]]
      rw [okRun_cons, Bool.and_eq_true]
      have hok : okRun (x :: xs) = true := by rw [← hd]; exact ih h2
      refine ⟨?_, hok⟩
      rw [Bool.or_eq_true] at h1 ⊢
      rcases h1 with hh | hn
      · have hpres := headNonWs_dropTrailingWs as hh
        rw [hd] at hpres
        exact Or.inl hpres
      · exact Or.inr hn

/-- After right-trimming the last character is never whitespace. -/
lemma lastOk_dropTrailingWs : ∀ l : List Char, lastOk (dropTrailingWs l) = true := by
  intro l
  induction l with
  | nil => rfl
  | cons a as ih =>
    cases hd : dropTrailingWs as with
    | nil =>
      rw [show dropTrailingWs (a :: as) = if isWs a then [] else [a] by
        simp only [dropTrailingWs, hd]]
      split
      · rfl
      · next hws =>
        have ha : isWs a = false := by simpa using hws
        simp [lastOk, ha]
    | cons x xs =>
      rw [show dropTrailingWs (a :: as) = a :: x :: xs by
        simp only [dropTrailingWs, hd]]
      rw [hd] at ih
      exact ih

end NormalizerNF

section NormalizerFix

/-- Dropping leading whitespace fixes a string whose head is not
whitespace. -/
lemma dropWhileWs_eq_self (l : List Char) (h : headNonWs l = true) :
    l.dropWhile isWs = l := by
  cases l with
  | nil => rfl
  | cons a as =>
    have ha : isWs a = false := by simpa [headNonWs] using h
    rw [List.dropWhile_cons, if_neg (by simp [ha])]

/-- One-step unfolding of `dropTrailingWs` on a cons. -/
lemma dropTrailingWs_cons (a : Char) (as : List Char) :
    dropTrailingWs (a :: as) =
      match dropTrailingWs as with
      | [] => if isWs a then [] else [a]
      | r => a :: r := rfl

/-- Right-trimming fixes a string whose last character is not whitespace. -/
lemma dropTrailingWs_eq_self : ∀ l : List Char, lastOk l = true → dropTrailingWs l = l := by
  intro l
  induction l with
  | nil => intro _; rfl
  | cons a as ih =>
    intro h
    cases as with
    | nil =>
      have ha : isWs a = false := by simpa [lastOk] using h
      simp [dropTrailingWs, ha]
    | cons b bs =>
      have h' : lastOk (b :: bs) = true := h
      have hd : dropTrailingWs (b :: bs) = b :: bs := ih h'
      rw [dropTrailingWs_cons, hd]

/-- Collapsing whitespace fixes a string that is run-free, space-only in its
whitespace, and headed by a non-whitespace character. -/
lemma collapseWsAux_false_eq_self : ∀ (n : Nat) (l : List Char), l.length ≤ n →
    okRun l = true → (∀ c ∈ l, isWs c = true → c = ' ') → headNonWs l = true →
    collapseWsAux false l = l := by
  intro n
  induction n with
  | zero =>
    intro l hl _ _ _
    have hnil : l = [] := List.length_eq_zero.mp (Nat.le_zero.mp hl)
    subst hnil
    rfl
  | succ n ih =>
    intro l hl ho hs hh
    cases l with
    | nil => rfl
    | cons a as =>
      have ha : isWs a = false := by simpa [headNonWs] using hh
      rw [show collapseWsAux false (a :: as) = a :: collapseWsAux false as by
        simp [collapseWsAux, ha]]
      rw [okRun_cons, Bool.and_eq_true] at ho
      obtain ⟨ho1, ho2⟩ := ho
      cases as with
      | nil => rfl
      | cons b bs =>
        by_cases hb : isWs b = true
        · have hb' : b = ' ' := hs b (by simp) hb
          have hbs : headNonWs bs = true := by
            cases bs with
            | nil => rfl
            | cons e es =>
              rw [okRun_cons, Bool.and_eq_true] at ho2
              have hor := ho2.1
              rw [Bool.or_eq_true] at hor
              rcases hor with hx | hx
              · exact hx
              · rw [hb] at hx
                cases hx
          have hcc : collapseWsAux true bs = collapseWsAux false bs := by
            cases bs with
            | nil => rfl
            | cons e es =>
              have he : isWs e = false := by simpa [headNonWs] using hbs
              simp [collapseWsAux, he]
          have hrec : collapseWsAux false bs = bs := by
            refine ih bs ?_ ?_ ?_ hbs
            · simp only [List.length_cons] at hl ⊢
              omega
            · rw [okRun_cons, Bool.and_eq_true] at ho2
              exact ho2.2
            · intro c hc hwc
              exact hs c (List.mem_cons_of_mem _ (List.mem_cons_of_mem _ hc)) hwc
          rw [show collapseWsAux false (b :: bs) = ' ' :: collapseWsAux true bs by
            simp [collapseWsAux, hb]]
          rw [hcc, hrec, hb']
        · have hb' : isWs b = false := by simpa using hb
          have hfix : collapseWsAux false (b :: bs) = b :: bs := by
            refine ih (b :: bs) ?_ ho2 ?_ ?_
            · simp only [List.length_cons] at hl ⊢
              omega
            · intro c hc hwc
              exact hs c (List.mem_cons_of_mem _ hc) hwc
            · simp [headNonWs, hb']
          rw [hfix]

/-- Collapse-then-strip fixes a string already in collapsed, stripped form. -/
lemma pyStrip_collapseWs_fix (y : List Char) (ho : okRun y = true)
    (hs : ∀ c ∈ y, isWs c = true → c = ' ') (hh : headNonWs y = true)
    (hl : lastOk y = true) :
    pyStrip (collapseWs y) = y := by
  have h1 : collapseWs y = y := collapseWsAux_false_eq_self y.length y le_rfl ho hs hh
  rw [h1]
  show dropTrailingWs (y.dropWhile isWs) = y
  rw [dropWhileWs_eq_self y hh]
  exact dropTrailingWs_eq_self y hl

/-- The output of the normalizer is in collapsed, stripped form. -/
lemma normalize_props (x : List Char) :
    okRun (normalize_product_name x) = true ∧
    (∀ c ∈ normalize_product_name x, isWs c = true → c = ' ') ∧
    headNonWs (normalize_product_name x) = true ∧
    lastOk (normalize_product_name x) = true := by
  refine ⟨?_, ?_, ?_, ?_⟩
  · exact okRun_dropTrailingWs _ (okRun_dropWhileWs _ (okRun_collapseWsAux _ false))
  · intro c hc hwc
    have h1 : c ∈ (collapseWsAux false (stripUnits (pyLower x))).dropWhile isWs :=
      mem_dropTrailingWs _ c hc
    exact wsSp_collapseWsAux _ _ c ((List.dropWhile_suffix _).mem h1) hwc
  · exact headNonWs_dropTrailingWs _ (headNonWs_dropWhileWs _)
  · exact lastOk_dropTrailingWs _

end NormalizerFix

section NormalizerTheorems

/-- C3 counterexample.  The normalizer is not idempotent: removing a
number-plus-unit token can create a new one out of the surrounding text, so a
second pass strips further.  Concretely,
`normalize("12 12 oz oz") = "12 oz"` while `normalize("12 oz") = ""`. -/
theorem C3_counterexample :
    normalize_product_name (normalize_product_name ("12 12 oz oz".data)) ≠
      normalize_product_name ("12 12 oz oz".data) := by decide

/-- C3 (amended).  The normalizer is idempotent on every string whose
normalized form contains no residual number-plus-unit token (unit stripping
is a no-op on it); the lower-casing, whitespace-collapsing and trimming
passes are always idempotent. -/
theorem C3_idempotent_on_unit_free (x : List Char)
    (h : stripUnits (normalize_product_name x) = normalize_product_name x) :
    normalize_product_name (normalize_product_name x) = normalize_product_name x := by
  obtain ⟨ho, hs, hh, hl⟩ := normalize_props x
  have hlow : pyLower (normalize_product_name x) = normalize_product_name x :=
    pyLower_eq_self _ (asciiLower_fix_of_mem_normalize x)
  calc normalize_product_name (normalize_product_name x)
      = pyStrip (collapseWs (stripUnits (pyLower (normalize_product_name x)))) := rfl
    _ = pyStrip (collapseWs (normalize_product_name x)) := by rw [hlow, h]
    _ = normalize_product_name x := pyStrip_collapseWs_fix _ ho hs hh hl

/-- C3 witness: `"Tide Detergent 100oz"` normalizes to `"tide detergent"`,
which is unit-free, and the normalizer is idempotent there. -/
theorem C3_idempotent_on_unit_free_witness :
    stripUnits (normalize_product_name ("Tide Detergent 100oz".data)) =
      normalize_product_name ("Tide Detergent 100oz".data) ∧
    normalize_product_name (normalize_product_name ("Tide Detergent 100oz".data)) =
      normalize_product_name ("Tide Detergent 100oz".data) :=
  ⟨by decide, C3_idempotent_on_unit_free _ (by decide)⟩

end NormalizerTheorems
